import Mathlib

/-!
Verification of the SMACT composition filter: the neutral-ratio solver,
the Pauling electronegativity-ordering test, and the filter orchestrator.

The repository ships the filter's callers (notebooks, docs, fixtures); the
library functions themselves (`neutral_ratios`, `pauling_test`,
`smact_filter` of `smact.screening`) are modelled from the specification,
and checked against the fixed reference output recorded in the repository
(the Ti/Ga/O run at threshold 3, a 22-row fixture).

Electronegativities are on the Pauling scale; the spec quotes them to two
decimal places (e.g. 3.44 for oxygen), so they are embedded as integers
scaled by 100, which preserves every order comparison the filter makes.
-/

/-- Weighted sum of oxidation states against stoichiometry ratios:
`Σ oxidation_state_i * ratio_i` (spec §4.1 / glossary "charge neutrality"). -/
def dotProd : List Int → List Nat → Int
  | o :: os, r :: rs => o * (r : Int) + dotProd os rs
  | _, _ => 0

/-- Greatest common divisor of all components of a ratio tuple; a tuple is in
lowest common form exactly when this is 1. -/
def gcdList (l : List Nat) : Nat := l.foldr Nat.gcd 0

/-- Cartesian product of a list of choice lists, in the order of Python's
`itertools.product`: the first slot varies slowest, the last slot fastest. -/
def listProd : List (List α) → List (List α)
  | [] => [[]]
  | xs :: rest => xs.flatMap (fun x => (listProd rest).map (x :: ·))

/-- Modelled from the spec: the neutral-ratio solver `smact.neutral_ratios`
(its Python source is not in the repository snapshot; only callers and
fixtures are). Spec §4.1: given oxidation states and a positive threshold T,
"produce the finite set of integer stoichiometry sequences (each component in
[1, T]) whose weighted sum with the oxidation states is exactly zero, reduced
to their lowest common form (i.e. not a scalar multiple of a smaller valid
solution already returned), in deterministic order"; "any zero oxidation
state is rejected immediately"; callers receive a `(flag, ratios)` pair and
branch on the flag (spec §7: no solution is an empty result, not an error).
Candidate tuples are enumerated in the product order of `[1..T]^n`. -/
def neutral_ratios (ox : List Int) (threshold : Nat) : Bool × List (List Nat) :=
  if ox.any (· == 0) then (false, [])
  else
    let sols := (listProd (List.replicate ox.length (List.range' 1 threshold))).filter
      (fun r => dotProd ox r == 0 && gcdList r == 1)
    (!sols.isEmpty, sols)

/-- Electronegativities of the slots holding a strictly positive oxidation
state (the cation group of spec §4.2). -/
def posEnegs (ox eneg : List Int) : List Int :=
  (ox.zip eneg).filterMap (fun p => if 0 < p.1 then some p.2 else none)

/-- Electronegativities of the slots holding a strictly negative oxidation
state (the anion group of spec §4.2). -/
def negEnegs (ox eneg : List Int) : List Int :=
  (ox.zip eneg).filterMap (fun p => if p.1 < 0 then some p.2 else none)

/-- Modelled from the spec: `smact.screening.pauling_test` (its Python source
is not in the repository snapshot). Spec §4.2: compute the maximum
electronegativity over slots with strictly positive oxidation state and the
minimum over slots with strictly negative oxidation state; pass iff the
former ≤ the latter (non-strict, ties pass); slots with state 0 belong to
neither group; if either group is empty the test trivially passes. -/
def pauling_test (ox : List Int) (eneg : List Int) : Bool :=
  match (posEnegs ox eneg).max?, (negEnegs ox eneg).min? with
  | some M, some m => decide (M ≤ m)
  | _, _ => true

/-- Modelled from the spec: the filter orchestrator
`smact.screening.smact_filter` (its Python source is not in the repository
snapshot; the repository holds its documented output fixtures). Spec §4.3:
enumerate the Cartesian product of each slot's allowed oxidation states; for
each assignment run the neutral-ratio solver, discard the assignment if it
yields zero ratios or fails the electronegativity-ordering test, and
otherwise emit one CandidateComposition (symbols, oxidation states, ratio)
per returned ratio, assignments in product order with the first slot varying
slowest. -/
def smact_filter (symbols : List String) (oxCombos : List (List Int))
    (enegs : List Int) (threshold : Nat) :
    List (List String × List Int × List Nat) :=
  (listProd oxCombos).flatMap (fun ox =>
    if (neutral_ratios ox threshold).1 && pauling_test ox enegs then
      (neutral_ratios ox threshold).2.map (fun r => (symbols, ox, r))
    else [])

/-- The fixed reference output recorded in the repository's filter example:
`smact_filter` on Ti, Ga, O at threshold 3 (22 rows, in output order). -/
def referenceTiGaO : List (List String × List Int × List Nat) :=
  [ (["Ti", "Ga", "O"], ([1, 1, -2], [1, 1, 1])),
    (["Ti", "Ga", "O"], ([1, 1, -2], [1, 3, 2])),
    (["Ti", "Ga", "O"], ([1, 1, -2], [3, 1, 2])),
    (["Ti", "Ga", "O"], ([1, 1, -1], [1, 1, 2])),
    (["Ti", "Ga", "O"], ([1, 1, -1], [1, 2, 3])),
    (["Ti", "Ga", "O"], ([1, 1, -1], [2, 1, 3])),
    (["Ti", "Ga", "O"], ([1, 2, -2], [2, 1, 2])),
    (["Ti", "Ga", "O"], ([1, 2, -2], [2, 2, 3])),
    (["Ti", "Ga", "O"], ([1, 2, -1], [1, 1, 3])),
    (["Ti", "Ga", "O"], ([1, 3, -2], [1, 1, 2])),
    (["Ti", "Ga", "O"], ([1, 3, -2], [3, 1, 3])),
    (["Ti", "Ga", "O"], ([2, 1, -2], [1, 2, 2])),
    (["Ti", "Ga", "O"], ([2, 1, -2], [2, 2, 3])),
    (["Ti", "Ga", "O"], ([2, 1, -1], [1, 1, 3])),
    (["Ti", "Ga", "O"], ([2, 2, -2], [1, 1, 2])),
    (["Ti", "Ga", "O"], ([2, 2, -2], [1, 2, 3])),
    (["Ti", "Ga", "O"], ([2, 2, -2], [2, 1, 3])),
    (["Ti", "Ga", "O"], ([3, 1, -2], [1, 1, 2])),
    (["Ti", "Ga", "O"], ([3, 1, -2], [1, 3, 3])),
    (["Ti", "Ga", "O"], ([3, 3, -2], [1, 1, 3])),
    (["Ti", "Ga", "O"], ([4, 1, -2], [1, 2, 3])),
    (["Ti", "Ga", "O"], ([4, 2, -2], [1, 1, 3])) ]

example : (neutral_ratios [2, -2] 8).2 = [[1, 1]] := by decide
example : (neutral_ratios [1, -2] 8).2 = [[2, 1]] := by decide
example : (neutral_ratios [1, 1, -2] 3).2 = [[1, 1, 1], [1, 3, 2], [3, 1, 2]] := by decide

/-! ## Supporting lemmas -/

/-- A list belongs to `listProd xss` exactly when it picks one member from
each choice list, in order. -/
theorem mem_listProd {α : Type} {xss : List (List α)} {l : List α} :
    l ∈ listProd xss ↔ List.Forall₂ (fun x xs => x ∈ xs) l xss := by
  induction xss generalizing l with
  | nil =>
    simp [listProd, List.forall₂_nil_right_iff]
  | cons xs rest ih =>
    simp only [listProd, List.mem_flatMap, List.mem_map]
    constructor
    · rintro ⟨x, hx, t, ht, rfl⟩
      exact List.Forall₂.cons hx (ih.mp ht)
    · intro h
      cases h with
      | cons hx ht => exact ⟨_, hx, _, ih.mpr ht, rfl⟩

/-- Membership in the product of `n` copies of one choice list. -/
theorem mem_listProd_replicate {α : Type} {n : Nat} {xs : List α} {l : List α} :
    l ∈ listProd (List.replicate n xs) ↔ l.length = n ∧ ∀ x ∈ l, x ∈ xs := by
  induction n generalizing l with
  | zero =>
    simp only [List.replicate_zero, listProd, List.mem_singleton, List.length_eq_zero]
    constructor
    · rintro rfl
      simp
    · exact fun h => h.1
  | succ n ih =>
    simp only [List.replicate_succ, listProd, List.mem_flatMap, List.mem_map]
    constructor
    · rintro ⟨x, hx, t, ht, rfl⟩
      obtain ⟨hlen, hmem⟩ := ih.mp ht
      refine ⟨by simp [hlen], fun y hy => ?_⟩
      rcases List.mem_cons.mp hy with rfl | hy
      · exact hx
      · exact hmem y hy
    · intro ⟨hlen, hmem⟩
      cases l with
      | nil => simp at hlen
      | cons a t =>
        exact ⟨a, hmem a (List.mem_cons_self a t), t,
          ih.mpr ⟨by simpa using hlen, fun y hy => hmem y (List.mem_cons_of_mem a hy)⟩, rfl⟩

/-- Membership in the candidate range `[1..T]` of ratio components. -/
theorem mem_range1 {T x : Nat} : x ∈ List.range' 1 T ↔ 1 ≤ x ∧ x ≤ T := by
  rw [List.mem_range'_1]
  omega

/-- Characterisation of the ratio tuples returned by the solver. -/
theorem mem_neutral_ratios {ox : List Int} {T : Nat} {r : List Nat} :
    r ∈ (neutral_ratios ox T).2 ↔
      ox.any (· == 0) = false ∧ r.length = ox.length ∧
      (∀ x ∈ r, 1 ≤ x ∧ x ≤ T) ∧ dotProd ox r = 0 ∧ gcdList r = 1 := by
  unfold neutral_ratios
  cases hz : ox.any (· == 0) with
  | true => simp [hz]
  | false =>
    simp only [hz, Bool.false_eq_true, if_false, List.mem_filter,
      mem_listProd_replicate, mem_range1, Bool.and_eq_true, beq_iff_eq]
    tauto

/-- The solver's Boolean flag is true exactly when its ratio list is
non-empty. -/
theorem neutral_ratios_flag_iff (ox : List Int) (T : Nat) :
    (neutral_ratios ox T).1 = true ↔ (neutral_ratios ox T).2 ≠ [] := by
  unfold neutral_ratios
  cases hz : ox.any (· == 0) with
  | true => simp [hz]
  | false => simp [hz, List.isEmpty_iff]

/-- Scaling every component of a tuple by `k` scales its gcd by `k`. -/
theorem gcdList_map_mul (k : Nat) (s : List Nat) :
    gcdList (s.map (fun x => k * x)) = k * gcdList s := by
  induction s with
  | nil => simp [gcdList]
  | cons a s ih =>
    simp only [List.map_cons, gcdList, List.foldr_cons] at ih ⊢
    rw [ih, Nat.gcd_mul_left]

/-- Characterisation of the records emitted by the filter orchestrator. -/
theorem mem_smact_filter {syms : List String} {oxCombos : List (List Int)}
    {enegs : List Int} {T : Nat} {c : List String × List Int × List Nat} :
    c ∈ smact_filter syms oxCombos enegs T ↔
      ∃ ox r, ox ∈ listProd oxCombos ∧ (neutral_ratios ox T).1 = true ∧
        pauling_test ox enegs = true ∧ r ∈ (neutral_ratios ox T).2 ∧
        c = (syms, ox, r) := by
  unfold smact_filter
  simp only [List.mem_flatMap]
  constructor
  · rintro ⟨ox, hox, hc⟩
    cases hcond : ((neutral_ratios ox T).1 && pauling_test ox enegs) with
    | false => simp [hcond] at hc
    | true =>
      have hcond' := hcond
      rw [Bool.and_eq_true] at hcond'
      obtain ⟨h1, h2⟩ := hcond'
      simp only [hcond, if_true, List.mem_map] at hc
      obtain ⟨r, hr, rfl⟩ := hc
      exact ⟨ox, r, hox, h1, h2, hr, rfl⟩
  · rintro ⟨ox, r, hox, h1, h2, hr, rfl⟩
    refine ⟨ox, hox, ?_⟩
    simp only [h1, h2, Bool.and_self, if_true, List.mem_map]
    exact ⟨r, hr, rfl⟩

/-- Membership in the cation electronegativity group. -/
theorem mem_posEnegs {ox eneg x : _} :
    x ∈ posEnegs ox eneg ↔ ∃ p ∈ ox.zip eneg, 0 < p.1 ∧ p.2 = x := by
  unfold posEnegs
  simp only [List.mem_filterMap]
  constructor
  · rintro ⟨p, hp, hx⟩
    by_cases h : 0 < p.1
    · simp only [if_pos h, Option.some_inj] at hx
      exact ⟨p, hp, h, hx⟩
    · simp [if_neg h] at hx
  · rintro ⟨p, hp, h, rfl⟩
    exact ⟨p, hp, by simp [if_pos h]⟩

/-- Membership in the anion electronegativity group. -/
theorem mem_negEnegs {ox eneg x : _} :
    x ∈ negEnegs ox eneg ↔ ∃ p ∈ ox.zip eneg, p.1 < 0 ∧ p.2 = x := by
  unfold negEnegs
  simp only [List.mem_filterMap]
  constructor
  · rintro ⟨p, hp, hx⟩
    by_cases h : p.1 < 0
    · simp only [if_pos h, Option.some_inj] at hx
      exact ⟨p, hp, h, hx⟩
    · simp [if_neg h] at hx
  · rintro ⟨p, hp, h, rfl⟩
    exact ⟨p, hp, by simp [if_pos h]⟩

/-- `max?` of an integer list returns a member that bounds the list above. -/
theorem intMaxSpec {l : List Int} {M : Int} (h : l.max? = some M) :
    M ∈ l ∧ ∀ b ∈ l, b ≤ M := by
  have : Std.Antisymm ((· ≤ ·) : Int → Int → Prop) :=
    ⟨fun h1 h2 => Int.le_antisymm h1 h2⟩
  rw [List.max?_eq_some_iff] at h
  · exact h
  · exact fun a => le_refl a
  · exact fun a b => max_choice a b
  · exact fun a b c => max_le_iff

/-- `min?` of an integer list returns a member that bounds the list below. -/
theorem intMinSpec {l : List Int} {m : Int} (h : l.min? = some m) :
    m ∈ l ∧ ∀ b ∈ l, m ≤ b := by
  have : Std.Antisymm ((· ≤ ·) : Int → Int → Prop) :=
    ⟨fun h1 h2 => Int.le_antisymm h1 h2⟩
  rw [List.min?_eq_some_iff] at h
  · exact h
  · exact fun a => le_refl a
  · exact fun a b => min_choice a b
  · exact fun a b c => le_min_iff

/-- The electronegativity test passes exactly when every cation-group value
is bounded by every anion-group value. -/
theorem pauling_test_iff_all (ox eneg : List Int) :
    pauling_test ox eneg = true ↔
      ∀ x ∈ posEnegs ox eneg, ∀ y ∈ negEnegs ox eneg, x ≤ y := by
  unfold pauling_test
  rcases hM : (posEnegs ox eneg).max? with _ | M <;>
    rcases hm : (negEnegs ox eneg).min? with _ | m
  · rw [List.max?_eq_none_iff] at hM
    simp [hM]
  · rw [List.max?_eq_none_iff] at hM
    simp [hM]
  · rw [List.min?_eq_none_iff] at hm
    simp [hm]
  · obtain ⟨hMmem, hMub⟩ := intMaxSpec hM
    obtain ⟨hmmem, hmlb⟩ := intMinSpec hm
    simp only [decide_eq_true_eq]
    constructor
    · intro hMm x hx y hy
      exact le_trans (hMub x hx) (le_trans hMm (hmlb y hy))
    · intro h
      exact h M hMmem m hmmem

/-! ## Claims -/

/-- C1 (counterexample): with the anion slot restricted to oxidation state
-2 only, as the claim words it, the filter does not return the fixed
22-row reference set (it returns only the 17 rows whose anion state is -2;
the reference set also holds rows with anion state -1). -/
theorem c1_counterexample :
    smact_filter ["Ti", "Ga", "O"] [[1, 2, 3, 4], [1, 2, 3], [-2]]
      [154, 181, 344] 3 ≠ referenceTiGaO := by
  decide

/-- C1 (amended): with elements Ti, Ga and trailing anion O taking its
anionic oxidation states {-2, -1}, threshold 3, Ti states {1,2,3,4} and Ga
states {1,2,3}, the filter orchestrator returns exactly the fixed reference
set of 22 tuples recorded in the repository, in its recorded order,
including the rows ((Ti,Ga,O), (1,1,-2), (1,1,1)) and
((Ti,Ga,O), (4,2,-2), (1,1,3)). -/
theorem c1_filter_matches_reference :
    smact_filter ["Ti", "Ga", "O"] [[1, 2, 3, 4], [1, 2, 3], [-2, -1]]
      [154, 181, 344] 3 = referenceTiGaO := by
  decide

/-- C2: every CandidateComposition emitted by the filter at threshold T has
a zero dot product of oxidation states against stoichiometry ratios, and
every ratio component r obeys 1 ≤ r ≤ T. -/
theorem c2_neutral_and_bounded (syms : List String) (oxCombos : List (List Int))
    (enegs : List Int) (T : Nat) (c : List String × List Int × List Nat)
    (hc : c ∈ smact_filter syms oxCombos enegs T) :
    dotProd c.2.1 c.2.2 = 0 ∧ ∀ x ∈ c.2.2, 1 ≤ x ∧ x ≤ T := by
  obtain ⟨ox, r, hox, h1, h2, hr, rfl⟩ := mem_smact_filter.mp hc
  obtain ⟨hz, hlen, hb, hd, hg⟩ := mem_neutral_ratios.mp hr
  exact ⟨hd, hb⟩

/-- C2 (witness): the invariant instantiated on the Ti/Ga/O run at
threshold 3 and its first emitted record. -/
theorem c2_witness :
    dotProd [1, 1, -2] [1, 1, 1] = 0 ∧ ∀ x ∈ [1, 1, 1], 1 ≤ x ∧ x ≤ 3 :=
  c2_neutral_and_bounded ["Ti", "Ga", "O"] [[1, 2, 3, 4], [1, 2, 3], [-2, -1]]
    [154, 181, 344] 3 (["Ti", "Ga", "O"], ([1, 1, -2], [1, 1, 1])) (by decide)

/-- C3: the electronegativity-ordering test returns true iff every slot
with strictly positive oxidation state has electronegativity ≤ that of
every slot with strictly negative oxidation state (so the maximum over the
positive group is ≤ the minimum over the negative group, ties passing);
slots with oxidation state 0 are in neither group, and an empty group makes
the test vacuously true (the function is total, so it never raises). -/
theorem c3_pauling_test_characterisation (ox eneg : List Int) :
    pauling_test ox eneg = true ↔
      ∀ p ∈ ox.zip eneg, ∀ q ∈ ox.zip eneg,
        0 < p.1 → q.1 < 0 → p.2 ≤ q.2 := by
  rw [pauling_test_iff_all]
  constructor
  · intro h p hp q hq hppos hqneg
    exact h p.2 (mem_posEnegs.mpr ⟨p, hp, hppos, rfl⟩)
      q.2 (mem_negEnegs.mpr ⟨q, hq, hqneg, rfl⟩)
  · intro h x hx y hy
    obtain ⟨p, hp, hppos, rfl⟩ := mem_posEnegs.mp hx
    obtain ⟨q, hq, hqneg, rfl⟩ := mem_negEnegs.mp hy
    exact h p hp q hq hppos hqneg

/-- C4: an oxidation-state assignment containing 0 in any slot makes the
neutral-ratio solver return the empty result (falsy flag, no ratios); being
a total function it raises nothing. -/
theorem c4_zero_state_yields_empty (ox : List Int) (T : Nat)
    (h : (0 : Int) ∈ ox) :
    neutral_ratios ox T = (false, []) := by
  have hc : ox.any (· == 0) = true := by
    rw [List.any_eq_true]
    exact ⟨0, h, by decide⟩
  unfold neutral_ratios
  rw [if_pos hc]

/-- C4 (witness): the zero-state rejection at the concrete assignment
(0, 1, -1) with threshold 3. -/
theorem c4_witness : neutral_ratios [(0 : Int), 1, -1] 3 = (false, []) :=
  c4_zero_state_yields_empty [(0 : Int), 1, -1] 3 (by decide)

/-- C5: every ratio tuple returned by the solver is in lowest common form
(component gcd 1), and consequently no returned tuple equals another
returned tuple scaled by an integer factor k ≥ 2. -/
theorem c5_lowest_form (ox : List Int) (T : Nat) (r s : List Nat)
    (hr : r ∈ (neutral_ratios ox T).2) (_hs : s ∈ (neutral_ratios ox T).2)
    (k : Nat) (hk : 2 ≤ k) :
    gcdList r = 1 ∧ r ≠ s.map (fun x => k * x) := by
  obtain ⟨_, _, _, _, hg⟩ := mem_neutral_ratios.mp hr
  refine ⟨hg, fun heq => ?_⟩
  have hmul : gcdList r = k * gcdList s := by
    rw [heq, gcdList_map_mul]
  rw [hg] at hmul
  have hdvd : k ∣ 1 := ⟨gcdList s, hmul⟩
  have := Nat.le_of_dvd (by decide) hdvd
  omega

/-- C5 (witness): instantiated on the solver run for states (+1, -2) at
threshold 8, whose sole result is (2, 1), with scale factor 2. -/
theorem c5_witness :
    gcdList [2, 1] = 1 ∧ [2, 1] ≠ ([2, 1].map (fun x => 2 * x)) :=
  c5_lowest_form [1, -2] 8 [2, 1] [2, 1] (by decide) (by decide) 2 (by decide)

/-- C6: threshold monotonicity of the filter: every CandidateComposition
emitted at threshold T is also emitted at any threshold T' ≥ T. -/
theorem c6_threshold_monotone (syms : List String) (oxCombos : List (List Int))
    (enegs : List Int) (T T' : Nat) (hT : T ≤ T')
    (c : List String × List Int × List Nat)
    (hc : c ∈ smact_filter syms oxCombos enegs T) :
    c ∈ smact_filter syms oxCombos enegs T' := by
  obtain ⟨ox, r, hox, h1, h2, hr, rfl⟩ := mem_smact_filter.mp hc
  obtain ⟨hz, hlen, hb, hd, hg⟩ := mem_neutral_ratios.mp hr
  have hr' : r ∈ (neutral_ratios ox T').2 :=
    mem_neutral_ratios.mpr
      ⟨hz, hlen, fun x hx => ⟨(hb x hx).1, le_trans (hb x hx).2 hT⟩, hd, hg⟩
  have h1' : (neutral_ratios ox T').1 = true :=
    (neutral_ratios_flag_iff ox T').mpr
      (fun hnil => absurd (hnil ▸ hr') (List.not_mem_nil r))
  exact mem_smact_filter.mpr ⟨ox, r, hox, h1', h2, hr', rfl⟩

/-- C6 (witness): the Ti/O composition emitted at threshold 1 is still
emitted at threshold 2. -/
theorem c6_witness :
    (["Ti", "O"], ([2, -2], [1, 1])) ∈
      smact_filter ["Ti", "O"] [[2], [-2]] [154, 344] 2 :=
  c6_threshold_monotone ["Ti", "O"] [[2], [-2]] [154, 344] 1 2 (by decide)
    (["Ti", "O"], ([2, -2], [1, 1])) (by decide)

/-- C7: for one cation slot against a -2 anion at the default threshold 8,
the solver yields exactly ratio (1,1) for cation state +2, exactly (2,1)
for state +1, and at least (2,3) for state +3. -/
theorem c7_single_cation_ratios :
    (neutral_ratios [2, -2] 8).2 = [[1, 1]] ∧
    (neutral_ratios [1, -2] 8).2 = [[2, 1]] ∧
    [2, 3] ∈ (neutral_ratios [3, -2] 8).2 := by
  decide

/-- C8: output ordering. The assignment component of the filter's output is
the Cartesian-product enumeration of `listProd` (first slot varying
slowest), with each passing assignment repeated contiguously once per
emitted ratio; and within one assignment the scale factors of the emitted
ratio tuples (the gcd of a tuple, i.e. the factor by which it exceeds its
lowest common form) are non-decreasing, every returned tuple being at
scale 1. -/
theorem c8_output_order (syms : List String) (oxCombos : List (List Int))
    (enegs : List Int) (T : Nat) :
    (smact_filter syms oxCombos enegs T).map (fun c => c.2.1) =
      (listProd oxCombos).flatMap (fun ox =>
        if (neutral_ratios ox T).1 && pauling_test ox enegs then
          List.replicate (neutral_ratios ox T).2.length ox
        else []) ∧
    ∀ ox : List Int,
      ((neutral_ratios ox T).2.map gcdList).Pairwise (· ≤ ·) := by
  constructor
  · unfold smact_filter
    rw [List.map_flatMap]
    refine congrArg _ (funext fun ox => ?_)
    cases hcond : ((neutral_ratios ox T).1 && pauling_test ox enegs) with
    | false => simp [hcond]
    | true =>
      simp only [hcond, if_true, List.map_map]
      exact List.map_const' (neutral_ratios ox T).2 ox
  · intro ox
    apply List.pairwise_of_forall_mem_list
    intro a ha b hb
    obtain ⟨r, hr, rfl⟩ := List.mem_map.mp ha
    obtain ⟨s, hs, rfl⟩ := List.mem_map.mp hb
    rw [(mem_neutral_ratios.mp hr).2.2.2.2, (mem_neutral_ratios.mp hs).2.2.2.2]

/-- C9: the filter is deterministic: two invocations on identical element
symbols, identical oxidation-state choice lists, identical
electronegativities and identical threshold produce identical output
sequences (the embedded filter is a pure function of these inputs). -/
theorem c9_deterministic (s1 s2 : List String) (o1 o2 : List (List Int))
    (e1 e2 : List Int) (t1 t2 : Nat)
    (hs : s1 = s2) (ho : o1 = o2) (he : e1 = e2) (ht : t1 = t2) :
    smact_filter s1 o1 e1 t1 = smact_filter s2 o2 e2 t2 := by
  subst hs
  subst ho
  subst he
  subst ht
  rfl

/-- C9 (witness): two textually separate invocations on the same concrete
input coincide. -/
theorem c9_witness :
    smact_filter ["Ti", "O"] [[2], [-2]] [154, 344] 8 =
      smact_filter ["Ti", "O"] [[2], [-2]] [154, 344] 8 :=
  c9_deterministic ["Ti", "O"] ["Ti", "O"] [[2], [-2]] [[2], [-2]]
    [154, 344] [154, 344] 8 8 rfl rfl rfl rfl

/-- C10: the neutral-ratio solver returns a (flag, ratios) pair whose flag
is true exactly when the ratio list is non-empty; the no-solution case is
the (false, []) value of a total function, never an exception. -/
theorem c10_flag_iff_nonempty (ox : List Int) (T : Nat) :
    (neutral_ratios ox T).1 = true ↔ (neutral_ratios ox T).2 ≠ [] :=
  neutral_ratios_flag_iff ox T
